import Mathlib

/-!
# Verification of the LastWarHeros progress-tracker derivation layer

This file embeds the derivation layer and owner-scoped data-access helpers
of `streamlit_app.py` (key-value select/upsert, range expansion, series
aggregation, percent chips, research completion, the buildings diff-save
path and hero deletion) as executable Lean definitions, and proves or
refutes the specification claims about them.

String-processing primitives (`split`, `rsplit`, `strip`, `int(...)`,
`float(...)`) are modelled by structural recursion over `List Char` so
every definition evaluates inside the kernel.
-/

namespace LastWarHeros

/-! ## Python string/number primitives -/

/-- Whitespace characters stripped by Python's `str.strip()`. -/
def isPySpace (c : Char) : Bool :=
  c = ' ' || c = '\t' || c = '\n' || c = '\r' || c = '\x0b' || c = '\x0c'

/-- Python `s.strip()` on a character list: drop whitespace at both ends. -/
def chTrim (l : List Char) : List Char :=
  ((l.dropWhile isPySpace).reverse.dropWhile isPySpace).reverse

/-- Splits an optional leading sign off a numeric literal, returning the
sign as `1` or `-1` together with the remaining characters. -/
def signSplit : List Char → Int × List Char
  | '-' :: rest => (-1, rest)
  | '+' :: rest => (1, rest)
  | l => (1, l)

/-- The numeric value of a string of ASCII digits (most significant
first), as Python `int` builds it; `0` for the empty list. -/
def digitsVal (l : List Char) : Nat :=
  l.foldl (fun acc c => acc * 10 + (c.toNat - '0'.toNat)) 0

/-- Python `s.split(sep)` for a one-character separator: splits on every
occurrence, keeping empty fields, so `chSplit '-' "a--b"` has three
fields and `chSplit '-' ""` has one empty field. -/
def chSplit (sep : Char) : List Char → List (List Char)
  | [] => [[]]
  | c :: cs =>
    match chSplit sep cs with
    | [] => [[c]]
    | g :: gs => if c = sep then [] :: g :: gs else (c :: g) :: gs

/-- Joins fields back with a one-character separator (inverse of
`chSplit`), as Python `sep.join(fields)`. -/
def joinSep (sep : Char) : List (List Char) → List Char
  | [] => []
  | [g] => g
  | g :: gs => g ++ sep :: joinSep sep gs

/-- Python `int(s)`: strip whitespace, optional sign, then a nonempty run
of decimal digits; any other shape raises (here: `none`). -/
def pyInt (s : String) : Option Int :=
  let sb := signSplit (chTrim s.data)
  if sb.2 ≠ [] ∧ sb.2.all Char.isDigit then
    some (sb.1 * (digitsVal sb.2 : Int))
  else none

/-- Python `float(s)` restricted to plain decimal literals
`[sign]digits[.digits]` (either digit run may be empty but not both),
the only shapes this program stores; any other shape raises (here:
`none`). The value is exact, as a rational. -/
def pyFloat (s : String) : Option ℚ :=
  let sb := signSplit (chTrim s.data)
  let body := sb.2
  if body.contains '.' then
    match chSplit '.' body with
    | [a, b] =>
      if (a ≠ [] ∨ b ≠ []) ∧ a.all Char.isDigit ∧ b.all Char.isDigit then
        some (sb.1 * ((digitsVal a : ℚ) + (digitsVal b : ℚ) / (10 ^ b.length)))
      else none
    | _ => none
  else
    if body ≠ [] ∧ body.all Char.isDigit then
      some (sb.1 * (digitsVal body : ℚ))
    else none

/-- Python `int(x)` on a float/rational: truncation toward zero. -/
def qtrunc (q : ℚ) : ℤ :=
  if 0 ≤ q then ⌊q⌋ else ⌈q⌉

/-- Python `round(x)` to an integer: round half to even (banker's
rounding), modelled exactly on rationals. -/
def pyRound (q : ℚ) : ℤ :=
  let f : ℤ := ⌊q⌋
  let r : ℚ := q - f
  if r < 1/2 then f
  else if 1/2 < r then f + 1
  else if f % 2 = 0 then f else f + 1

/-- Python `round(x, 1)`: round half to even at one decimal place,
modelled exactly on rationals. -/
def round1 (q : ℚ) : ℚ :=
  (pyRound (q * 10) : ℚ) / 10

/-- ASCII lower-casing of one character, as Python `str.lower()` acts on
the ASCII names this program stores. -/
def chLower (c : Char) : Char :=
  if 'A' ≤ c ∧ c ≤ 'Z' then Char.ofNat (c.toNat + 32) else c

/-- Python `s.lower()` for ASCII strings. -/
def strLower (s : String) : String :=
  ⟨s.data.map chLower⟩

/-! ## Key-value adapter (`kv_select` / `kv_upsert`), from
`streamlit_app.py` lines 209-232 -/

/-- A row of a key-value settings table as returned by `kv_select`
(`select("key,value,updated_at")`); the `updated_at` column is carried by
the query but read by none of the modelled logic, so it is omitted. -/
structure KVRow where
  key : String
  value : String
deriving DecidableEq, Repr

/-- Errors the persistence client can raise.  `missingColumn` is the
schema error a missing `user_id` column produces; `timeout` stands for a
transport failure; `other` covers the rest. -/
inductive KVErr where
  | missingColumn
  | timeout
  | other (msg : String)
deriving DecidableEq, Repr

/-- The shape of one select issued by `kv_select`: the table, the
optional `.eq(ID_COL, uid)` owner filter, and the optional
`.in_("key", keys)` filter. -/
structure KVQuery where
  table : String
  owner : Option String
  keys : Option (List String)
deriving DecidableEq, Repr

/-- `kv_select` (lines 209-221): build the owner-filtered select and run
it; the `try`/`except Exception` wrapper reruns the identical select
without the owner filter whenever the first attempt raises, and the
second attempt's outcome is returned as is.  The backend is abstracted as
`exec`; `.data or []` is modelled by `exec` already returning a list. -/
def kv_select (exec : KVQuery → Except KVErr (List KVRow)) (table uid : String)
    (keys : Option (List String)) : Except KVErr (List KVRow) :=
  match exec ⟨table, some uid, keys⟩ with
  | .ok rows => .ok rows
  | .error _ => exec ⟨table, none, keys⟩

/-- The queries `kv_select` executes, in order: the owner-filtered query,
then — only when that raised — the unfiltered legacy query. -/
def kv_select_calls (exec : KVQuery → Except KVErr (List KVRow)) (table uid : String)
    (keys : Option (List String)) : List KVQuery :=
  match exec ⟨table, some uid, keys⟩ with
  | .ok _ => [⟨table, some uid, keys⟩]
  | .error _ => [⟨table, some uid, keys⟩, ⟨table, none, keys⟩]

/-- A payload row of an upsert after `kv_upsert` stamps `ID_COL`. -/
structure UpsertRow where
  user_id : String
  key : String
  value : String
deriving DecidableEq, Repr

/-- One upsert request sent to the store: target table, stamped rows, and
the `on_conflict` column list. -/
structure UpsertReq where
  table : String
  rows : List UpsertRow
  conflict : List String
deriving DecidableEq, Repr

/-- `kv_upsert` (lines 227-232): normalize the payload to a list, stamp
every row with the user id, and issue one upsert on conflict target
`user_id,key`.  There is no emptiness guard: the request is built from
whatever list results, including the empty one. -/
def kv_upsert_request (table uid : String) (payload : List KVRow) : UpsertReq :=
  { table := table
    rows := payload.map (fun r => ⟨uid, r.key, r.value⟩)
    conflict := ["user_id", "key"] }

/-- The upsert requests `kv_upsert` issues: always exactly the one built
by `kv_upsert_request`, whatever the payload. -/
def kv_upsert_calls (table uid : String) (payload : List KVRow) : List UpsertReq :=
  [kv_upsert_request table uid payload]

/-- A stored row of a key-value table, owner column included. -/
structure StoredRow where
  user_id : String
  key : String
  value : String
  updated_at : Nat
deriving DecidableEq, Repr

/-- Modelled from the spec: the persistence store's conflict-target
upsert of a single row (the store itself is an external collaborator,
specified only at its interface boundary).  A row matching the
`(user_id, key)` conflict target has its `value` replaced and its
`updated_at` bumped atomically; otherwise the row is inserted. -/
def upsert_one (now : Nat) (store : List StoredRow) (r : UpsertRow) : List StoredRow :=
  if store.any (fun s => s.user_id = r.user_id ∧ s.key = r.key) then
    store.map (fun s =>
      if s.user_id = r.user_id ∧ s.key = r.key then ⟨s.user_id, s.key, r.value, now⟩ else s)
  else store ++ [⟨r.user_id, r.key, r.value, now⟩]

/-- Modelled from the spec: applying every row of an upsert request to
the store, in payload order. -/
def apply_upsert (now : Nat) (store : List StoredRow) (rows : List UpsertRow) : List StoredRow :=
  rows.foldl (upsert_one now) store

/-- `load_kv_map` (lines 233-235): the Python dict comprehension
`{r["key"]: r["value"] for r in rows}` as a lookup function — a later
row with the same key shadows an earlier one, so the recursion consults
the tail first. -/
def load_kv_map : List KVRow → String → Option String
  | [], _ => none
  | r :: rs, k =>
    match load_kv_map rs k with
    | some v => some v
    | none => if k = r.key then some r.value else none

/-- The buildings-page bulk read (lines 950-952): one `kv_select` round
trip builds `current_map`, then the page assembles one row per requested
key, in the caller's key order, looking each key up in the map
(`current_map.get(b, ...)`; an absent key falls back to the default). -/
def bulk_read (keys : List String) (stored : List KVRow) : List (String × Option String) :=
  keys.map (fun k => (k, load_kv_map stored k))

/-! ## Series resolver (`expand_ranges_in_order`, `max_series_local`,
`sum_series_local`, `get_level`) -/

/-- Python `n.rsplit(" ", 1)`: split off the final space-separated token,
leaving the rest joined; a string without a space stays whole. -/
def rsplit1 (sep : Char) (s : String) : List String :=
  match chSplit sep s.data with
  | [] => [s]
  | [_] => [s]
  | gs => [⟨joinSep sep gs.dropLast⟩, ⟨gs.getLastD []⟩]

/-- The range-detection half of `expand_ranges_in_order` (lines 271-284):
`parts = n.rsplit(" ", 1)`; when there are two parts and the trailing one
contains `-`, split it on `-` and require exactly two integer-parsing
pieces (`lo, hi = [int(x) for x in rng.split("-")]`); every failure in
that `try` block means "no valid trailing range" (`none`). -/
def parse_trailing_range (n : String) : Option (String × Int × Int) :=
  match rsplit1 ' ' n with
  | [head, rng] =>
    if rng.data.contains '-' then
      match chSplit '-' rng.data with
      | [a, b] =>
        match pyInt ⟨a⟩, pyInt ⟨b⟩ with
        | some lo, some hi => some (head, lo, hi)
        | _, _ => none
      | _ => none
    else none
  | _ => none

/-- Python `range(lo, hi + 1)` over integers: empty when `hi < lo`. -/
def rangeIncl (lo hi : Int) : List Int :=
  (List.range (hi + 1 - lo).toNat).map (fun (k : Nat) => lo + (k : Int))

/-- One name's contribution in `expand_ranges_in_order`: a valid trailing
range emits `f"{head} {i}"` for each `i` in `range(lo, hi + 1)`; any
other name is appended unchanged. -/
def expand_one (n : String) : List String :=
  match parse_trailing_range n with
  | some (head, lo, hi) => (rangeIncl lo hi).map (fun i => head ++ " " ++ toString i)
  | none => [n]

/-- `expand_ranges_in_order` (lines 271-284): the per-name expansions
concatenated in input order. -/
def expand_ranges_in_order (names : List String) : List String :=
  (names.map expand_one).flatten

/-- The series key `f"{base} {i}"`. -/
def series_key (base : String) (i : Int) : String :=
  base ++ " " ++ toString i

/-- The value coercion shared by `max_series_local`, `sum_series_local`
and `get_level`: `int(float(v)) if v not in (None, "") else 0`, with the
surrounding `except` turning any parse failure into `0`. -/
def parse_level (v : Option String) : Int :=
  match v with
  | none => 0
  | some s =>
    if s = "" then 0
    else
      match pyFloat s with
      | some q => qtrunc q
      | none => 0

/-- `max_series_local` (lines 868-876): collect one coerced value per
suffix and return Python `max(vals)` (a left fold from the first
element), or `0` when the suffix list is empty. -/
def max_series_local (m : String → Option String) (base : String) (rng : List Int) : Int :=
  match rng.map (fun i => parse_level (m (series_key base i))) with
  | [] => 0
  | v :: vs => vs.foldl max v

/-- `sum_series_local` (lines 878-886): sum the coerced values; the
`except: pass` skips a failing term, which contributes `0` exactly as
`parse_level` reports it. -/
def sum_series_local (m : String → Option String) (base : String) (rng : List Int) : Int :=
  (rng.map (fun i => parse_level (m (series_key base i)))).sum

/-- The `ALIASES` table (lines 286-292). -/
def ALIASES : List (String × String) :=
  [("oil wall", "Oil Well"), ("coil vault", "Coin Vault"),
   ("farm warehouse", "Food Warehouse"), ("tactical institute", "Technical Institute"),
   ("training grounds", "Drill Ground")]

/-- `get_level` (lines 647-654): alias-resolve the lower-cased name
(`ALIASES.get(name.lower(), name)`), look it up in the level map, and
coerce exactly as `parse_level` does. -/
def get_level (m : String → Option String) (name : String) : Int :=
  parse_level (m ((ALIASES.lookup (strLower name)).getD name))

/-! ## Percent chips (`pct_chip`, `pct_of_hq_sum`, `pct_of_hq_single`) -/

/-- The percent a chip displays, from `pct_chip` (lines 323-331):
`max(0, min(100, int(round(pct))))`. -/
def pct_chip_p (pct : ℚ) : Int :=
  max 0 (min 100 (pyRound pct))

/-- `pct_of_hq_single` (lines 895-897): `0.0` when the HQ level is not
positive, else the raw unclamped ratio `get_level(name) / hq * 100`. -/
def pct_of_hq_single (m : String → Option String) (hq : Int) (name : String) : ℚ :=
  if hq ≤ 0 then 0 else (get_level m name : ℚ) / (hq : ℚ) * 100

/-- `pct_of_hq_sum` (lines 888-894): `0.0` when the HQ level is not
positive, else the summed series level over `len(rng) * hq`, times 100
(the `SERIES[series_key]` suffix list is passed in directly). -/
def pct_of_hq_sum (m : String → Option String) (hq : Int) (base : String)
    (rng : List Int) : ℚ :=
  if hq ≤ 0 then 0
  else
    let total := sum_series_local m base rng
    let denom : ℚ := (rng.length : ℚ) * (hq : ℚ)
    if 0 < denom then (total : ℚ) / denom * 100 else 0

/-- The single-entity percent-of-baseline pipeline abstracted over the
numerator and denominator: the guard of `pct_of_hq_single` followed by
the `pct_chip` clamp-and-round. -/
def percent_of_baseline_single (value baseline : Int) : Int :=
  pct_chip_p (if baseline ≤ 0 then 0 else (value : ℚ) / (baseline : ℚ) * 100)

/-! ## Research completion (`research_completion`, lines 435-445) -/

/-- `research_completion` (lines 435-445): rows carry the already-coerced
numeric `(level, max_level)` pair
(`pd.to_numeric(..., errors="coerce").fillna(0)` turns non-numeric
entries into `0` before this logic runs).  Keep the rows with
`max_level > 0`; if none remain (or the frame is empty) return `0.0`;
else clamp each level to its max, average the fractions, and return
`round(mean * 100, 1)`.  Note: this helper is defined but not called by
any live page in this version of the source — the dashboard's research
chips compute their category percentages separately (see
`research_chips_pct`). -/
def research_completion (rows : List (ℚ × ℚ)) : ℚ :=
  let valid := rows.filter (fun r => 0 < r.2)
  if valid.isEmpty then 0
  else round1 ((valid.map (fun r => min r.1 r.2 / r.2)).sum / (valid.length : ℚ) * 100)

/-- The spec's `groupCompletion`, written from its words: "mean, across
only rows where `cap > 0`, of `min(level, cap) / cap`, expressed as a
percentage rounded to one decimal place; returns `0.0` if no row has a
positive cap". -/
def groupCompletion_spec (rows : List (ℚ × ℚ)) : ℚ :=
  let valid := rows.filter (fun r => 0 < r.2)
  if valid.isEmpty then 0
  else round1 (100 * ((valid.map (fun r => min r.1 r.2 / r.2)).sum / (valid.length : ℚ)))

/-- One row's percentage as the Dashboard Research Progress chips (lines
929-941) compute it: `level / max_level * 100` with NO clamp, where
`max_level` has already been `fillna(1)`-coerced and the division
denominator is `max_level.replace(0, 1)`; `level` is `fillna(0)`-coerced.
Rows carry the already-coerced `(level, max_level)` pair. -/
def chip_row_pct (r : ℚ × ℚ) : ℚ :=
  r.1 / (if r.2 = 0 then 1 else r.2) * 100

/-- One category's percentage on the Dashboard Research Progress chips
(lines 929-941): `df.groupby("category")["pct"].mean().round(1)` — the
plain mean of the category rows' unclamped `chip_row_pct` values, rounded
to one decimal.  Unlike `research_completion`, no row is excluded and no
level is clamped to its cap.  (`groupby` never yields an empty group;
the `0` branch only makes the function total.)  The number the chip then
renders is `pct_chip_p` of this value. -/
def research_chips_pct (rows : List (ℚ × ℚ)) : ℚ :=
  if rows.isEmpty then 0
  else round1 ((rows.map chip_row_pct).sum / (rows.length : ℚ))

/-! ## Buildings save path (diff-based upsert, lines 993-1004) -/

/-- The diff loop of the buildings "Save changes" button: for each edited
row take `key = str(name).strip()` and `lvl = int(level or 0)` (a missing
level counts as `0`), and keep `{"key": key, "value": str(lvl)}` exactly
when `str(current_map.get(key, "")) != str(lvl)`. -/
def save_changes (edited : List (String × Option ℚ))
    (current_map : String → Option String) : List KVRow :=
  edited.filterMap (fun r =>
    let key : String := ⟨chTrim r.1.data⟩
    let lvl : Int := qtrunc (r.2.getD 0)
    if ((current_map key).getD "") ≠ toString lvl then some ⟨key, toString lvl⟩ else none)

/-- The upsert calls the save button issues: `if changes:
kv_upsert("buildings_kv", user_id, changes)` — nothing at all when the
diff is empty, one request carrying exactly the diff otherwise. -/
def save_upsert_calls (edited : List (String × Option ℚ))
    (current_map : String → Option String) (uid : String) : List UpsertReq :=
  let changes := save_changes edited current_map
  if changes.isEmpty then [] else kv_upsert_calls "buildings_kv" uid changes

/-! ## Hero deletion (lines 186-187 and 1268-1276) -/

/-- A roster row, restricted to the columns the delete filters read. -/
structure HeroRow where
  id : String
  user_id : String
  name : String
deriving DecidableEq, Repr

/-- Whether a row matches every equality predicate of a delete request
(the chained `.eq(column, value)` calls). -/
def matches_filters (r : HeroRow) (fs : List (String × String)) : Bool :=
  fs.all (fun f =>
    if f.1 = "id" then r.id = f.2
    else if f.1 = "user_id" then r.user_id = f.2
    else if f.1 = "name" then r.name = f.2
    else false)

/-- Executing a delete request against a table: exactly the rows matching
all filters are removed. -/
def run_delete (tbl : List HeroRow) (fs : List (String × String)) : List HeroRow :=
  tbl.filter (fun r => ¬ matches_filters r fs)

/-- `hero_delete` (lines 186-187) issues
`.delete().eq(ID_COL, user_id).eq("name", name)`: both the owner and the
name predicate. -/
def hero_delete_filters (user_id name : String) : List (String × String) :=
  [("user_id", user_id), ("name", name)]

/-- The hero page's Delete button (lines 1268-1276) issues
`.delete().eq("id", current["id"]).eq(ID_COL, user_id)`: both the row id
and the owner predicate. -/
def hero_delete_button_filters (id user_id : String) : List (String × String) :=
  [("id", id), ("user_id", user_id)]

/-! ## Concrete fixtures (from the spec's testable properties) -/

/-- A backend whose owner-filtered select times out while the unfiltered
legacy select succeeds — the spec's "simulated timeout" scenario. -/
def timeoutThenOkExec : KVQuery → Except KVErr (List KVRow) :=
  fun q =>
    match q.owner with
    | some _ => .error .timeout
    | none => .ok [⟨"HQ", "30"⟩]

/-- The spec's series-aggregation fixture: `"Hospital 1"="10"`,
`"Hospital 2"="25"`, `"Hospital 3"` absent, `"Hospital 4"="bad"`. -/
def mHosp : String → Option String := fun k =>
  if k = "Hospital 1" then some "10"
  else if k = "Hospital 2" then some "25"
  else if k = "Hospital 4" then some "bad"
  else none

/-- A level map whose Tech Center series sums to 120% of `3 * hq` at
`hq = 10`: each of the three Tech Centers is at level 12. -/
def mOvershoot : String → Option String := fun k =>
  if k = "Tech Center 1" then some "12"
  else if k = "Tech Center 2" then some "12"
  else if k = "Tech Center 3" then some "12"
  else none

/-! ## Helper lemmas about the Python primitives -/

theorem qtrunc_natCast (n : ℕ) : qtrunc (n : ℚ) = n := by
  simp [qtrunc]

theorem qtrunc_intCast (n : ℤ) : qtrunc (n : ℚ) = n := by
  rcases le_or_lt 0 (n : ℚ) with h | h
  · simp [qtrunc, h]
  · simp [qtrunc, not_le.mpr h, le_of_lt h]

theorem pyRound_intCast (n : ℤ) : pyRound (n : ℚ) = n := by
  simp [pyRound]

theorem pyRound_cases (q : ℚ) : pyRound q = ⌊q⌋ ∨ pyRound q = ⌊q⌋ + 1 := by
  unfold pyRound
  dsimp only
  split_ifs <;> simp

theorem pyRound_le_add_half (q : ℚ) : (pyRound q : ℚ) ≤ q + 1/2 := by
  have hfl : (⌊q⌋ : ℚ) ≤ q := Int.floor_le q
  unfold pyRound
  dsimp only
  split_ifs with h1 h2 h3
  · linarith
  · push_cast; linarith
  · linarith
  · have h4 : q - (⌊q⌋ : ℚ) = 1/2 := le_antisymm (not_lt.mp h2) (not_lt.mp h1)
    push_cast
    linarith

theorem pyRound_nonneg {q : ℚ} (h : 0 ≤ q) : 0 ≤ pyRound q := by
  rcases pyRound_cases q with hc | hc <;>
    · rw [hc]
      have := Int.floor_nonneg.mpr h
      omega

theorem pyRound_le_of_le {q : ℚ} {c : ℤ} (h : q ≤ c) : pyRound q ≤ c := by
  have h1 : (pyRound q : ℚ) ≤ (c : ℚ) + 1/2 := le_trans (pyRound_le_add_half q) (by linarith)
  have h2 : (pyRound q : ℚ) < (c : ℚ) + 1 := lt_of_le_of_lt h1 (by norm_num)
  have h3 : pyRound q < c + 1 := by exact_mod_cast h2
  omega

theorem round1_intCast (n : ℤ) : round1 (n : ℚ) = n := by
  have h : ((n : ℚ) * 10) = ((n * 10 : ℤ) : ℚ) := by push_cast; ring
  rw [round1, h, pyRound_intCast]
  push_cast
  ring

theorem round1_le_100 {q : ℚ} (h : q ≤ 100) : round1 q ≤ 100 := by
  have h1 : q * 10 ≤ ((1000 : ℤ) : ℚ) := by push_cast; linarith
  have h2 : pyRound (q * 10) ≤ 1000 := pyRound_le_of_le h1
  have h3 : (pyRound (q * 10) : ℚ) ≤ 1000 := by exact_mod_cast h2
  rw [round1]
  linarith

/-! ## Claim C1: owner fallback in `kv_select` -/

/-- Claim C1 (counterexample): a simulated timeout on the owner-filtered
select does NOT propagate with zero retries — `kv_select` retries without
the owner filter and returns the legacy rows, so the claimed
"any other failure causes zero retries and propagates" is false on this
code. -/
theorem kv_select_retries_on_timeout :
    timeoutThenOkExec ⟨"buildings_kv", some "u1", none⟩ = .error .timeout ∧
    kv_select timeoutThenOkExec "buildings_kv" "u1" none = .ok [⟨"HQ", "30"⟩] ∧
    kv_select_calls timeoutThenOkExec "buildings_kv" "u1" none =
      [⟨"buildings_kv", some "u1", none⟩, ⟨"buildings_kv", none, none⟩] ∧
    kv_select timeoutThenOkExec "buildings_kv" "u1" none ≠ .error .timeout :=
  ⟨rfl, rfl, rfl, fun h => Except.noConfusion h⟩

/-- Claim C1 (amended): the retry without the owner filter happens
whenever the first, owner-scoped select fails with ANY error — timeouts
included, not only schema errors.  The fallback is still attempted at
most once, and the second attempt's outcome (rows or error) is what the
caller receives. -/
theorem kv_select_fallback_semantics (exec : KVQuery → Except KVErr (List KVRow))
    (table uid : String) (keys : Option (List String)) :
    (∀ rows, exec ⟨table, some uid, keys⟩ = .ok rows →
      kv_select exec table uid keys = .ok rows ∧
      kv_select_calls exec table uid keys = [⟨table, some uid, keys⟩]) ∧
    (∀ e, exec ⟨table, some uid, keys⟩ = .error e →
      kv_select exec table uid keys = exec ⟨table, none, keys⟩ ∧
      kv_select_calls exec table uid keys = [⟨table, some uid, keys⟩, ⟨table, none, keys⟩]) := by
  constructor
  · intro rows h
    constructor <;> simp [kv_select, kv_select_calls, h]
  · intro e h
    constructor <;> simp [kv_select, kv_select_calls, h]

/-- Witness for the amended C1 at the concrete timeout backend. -/
theorem kv_select_fallback_semantics_witness :
    kv_select timeoutThenOkExec "buildings_kv" "u1" none =
      timeoutThenOkExec ⟨"buildings_kv", none, none⟩ ∧
    kv_select_calls timeoutThenOkExec "buildings_kv" "u1" none =
      [⟨"buildings_kv", some "u1", none⟩, ⟨"buildings_kv", none, none⟩] :=
  (kv_select_fallback_semantics timeoutThenOkExec "buildings_kv" "u1" none).2
    KVErr.timeout rfl

/-! ## Claim C9: `kv_upsert` on an empty payload -/

/-- Claim C9 (counterexample): called with zero rows, `kv_upsert` still
issues exactly one upsert request (there is no emptiness guard), so "it
issues no write to the store" is false as stated. -/
theorem kv_upsert_empty_still_calls :
    (kv_upsert_calls "buildings_kv" "u1" []).length = 1 ∧
    (kv_upsert_calls "buildings_kv" "u1" []).length ≠ 0 :=
  ⟨rfl, by decide⟩

/-- Claim C9 (amended): on an empty payload `kv_upsert` issues one upsert
request carrying zero rows, and applying a zero-row upsert leaves every
stored value and every `updated_at` timestamp unchanged. -/
theorem kv_upsert_empty_is_noop_on_store :
    (∀ table uid, kv_upsert_calls table uid [] =
      [{ table := table, rows := [], conflict := ["user_id", "key"] }]) ∧
    (∀ table uid, (kv_upsert_request table uid []).rows = []) ∧
    (∀ now store, apply_upsert now store [] = store) :=
  ⟨fun _ _ => rfl, fun _ _ => rfl, fun _ _ => rfl⟩

/-! ## Claim C2: deletes are owner-filtered -/

/-- Claim C2: both delete paths filter by the owner id together with the
name (resp. the row id), so a row owned by a different user survives the
delete untouched, and both filter lists carry the owner predicate. -/
theorem hero_delete_owner_filtered :
    ∀ (tbl : List HeroRow) (uid nm rid : String) (r : HeroRow),
      r ∈ tbl → r.user_id ≠ uid →
      r ∈ run_delete tbl (hero_delete_filters uid nm) ∧
      r ∈ run_delete tbl (hero_delete_button_filters rid uid) ∧
      ("user_id", uid) ∈ hero_delete_filters uid nm ∧
      ("user_id", uid) ∈ hero_delete_button_filters rid uid := by
  intro tbl uid nm rid r hmem hne
  have h1 : matches_filters r (hero_delete_filters uid nm) =
      (decide (r.user_id = uid) && (decide (r.name = nm) && true)) := rfl
  have h2 : matches_filters r (hero_delete_button_filters rid uid) =
      (decide (r.id = rid) && (decide (r.user_id = uid) && true)) := rfl
  refine ⟨?_, ?_, by simp [hero_delete_filters], by simp [hero_delete_button_filters]⟩
  · exact List.mem_filter.mpr ⟨hmem, by simp [h1, hne]⟩
  · exact List.mem_filter.mpr ⟨hmem, by simp [h2, hne]⟩

/-- Witness for C2: a row owned by `U1` survives a delete issued while
authenticated as `U2`, on both delete paths. -/
theorem hero_delete_owner_filtered_witness :
    (⟨"7", "U1", "Aria"⟩ : HeroRow) ∈
      run_delete [⟨"7", "U1", "Aria"⟩] (hero_delete_filters "U2" "Aria") ∧
    (⟨"7", "U1", "Aria"⟩ : HeroRow) ∈
      run_delete [⟨"7", "U1", "Aria"⟩] (hero_delete_button_filters "7" "U2") ∧
    ("user_id", "U2") ∈ hero_delete_filters "U2" "Aria" ∧
    ("user_id", "U2") ∈ hero_delete_button_filters "7" "U2" :=
  hero_delete_owner_filtered [⟨"7", "U1", "Aria"⟩] "U2" "Aria" "7" ⟨"7", "U1", "Aria"⟩
    (by decide) (by decide)

/-! ## Claims C7 and C10: range expansion -/

theorem mem_rangeIncl (lo hi i : Int) : i ∈ rangeIncl lo hi ↔ lo ≤ i ∧ i ≤ hi := by
  simp only [rangeIncl, List.mem_map, List.mem_range]
  constructor
  · rintro ⟨k, hk, rfl⟩
    omega
  · rintro ⟨h1, h2⟩
    exact ⟨(i - lo).toNat, by omega, by omega⟩

theorem rangeIncl_ascending (lo hi : Int) : (rangeIncl lo hi).Pairwise (· < ·) := by
  refine List.Pairwise.map _ (fun a b h => ?_) (List.pairwise_lt_range _)
  have h2 : a < b := h
  omega

/-- Claim C7: expansion distributes over the input in order; a valid
trailing `<lo>-<hi>` token emits `"<head> <i>"` for exactly the integers
`lo ≤ i ≤ hi`, in ascending order; every name without a valid trailing
range token is passed through unchanged; and the spec's three examples
evaluate as stated. -/
theorem expand_range_claim :
    (∀ xs ys, expand_ranges_in_order (xs ++ ys) =
      expand_ranges_in_order xs ++ expand_ranges_in_order ys) ∧
    (∀ n head lo hi, parse_trailing_range n = some (head, lo, hi) →
      expand_one n = (rangeIncl lo hi).map (fun i => head ++ " " ++ toString i)) ∧
    (∀ lo hi i, i ∈ rangeIncl lo hi ↔ lo ≤ i ∧ i ≤ hi) ∧
    (∀ lo hi, (rangeIncl lo hi).Pairwise (· < ·)) ∧
    (∀ n, parse_trailing_range n = none → expand_one n = [n]) ∧
    expand_ranges_in_order ["Tech Center 1-3", "Wall", "Foo 1-x"] =
      ["Tech Center 1", "Tech Center 2", "Tech Center 3", "Wall", "Foo 1-x"] := by
  refine ⟨?_, ?_, mem_rangeIncl, rangeIncl_ascending, ?_, by decide⟩
  · intro xs ys
    simp [expand_ranges_in_order]
  · intro n head lo hi h
    simp [expand_one, h]
  · intro n h
    simp [expand_one, h]

/-- Witness for C7 at concrete inputs: the valid-range case at
`"Tech Center 1-3"` and the pass-through case at `"Wall"`. -/
theorem expand_range_claim_witness :
    expand_one "Tech Center 1-3" =
      (rangeIncl 1 3).map (fun i => "Tech Center" ++ " " ++ toString i) ∧
    expand_one "Wall" = ["Wall"] :=
  ⟨expand_range_claim.2.1 "Tech Center 1-3" "Tech Center" 1 3 rfl,
   expand_range_claim.2.2.2.2.1 "Wall" rfl⟩

/-- Claim C10: a name whose trailing token parses as `<lo>-<hi>` with
`lo > hi` expands to zero names — it is dropped from the output, not
passed through. -/
theorem expand_range_drops_inverted :
    (∀ n head lo hi, parse_trailing_range n = some (head, lo, hi) → hi < lo →
      expand_one n = []) ∧
    expand_ranges_in_order ["Foo 3-1"] = [] ∧
    expand_ranges_in_order ["A 1-2", "Foo 3-1", "Wall"] = ["A 1", "A 2", "Wall"] := by
  refine ⟨?_, by decide, by decide⟩
  intro n head lo hi h hlt
  have hr : rangeIncl lo hi = [] := by
    simp only [rangeIncl]
    have : (hi + 1 - lo).toNat = 0 := by omega
    simp [this]
  simp [expand_one, h, hr]

/-- Witness for C10 at the concrete inverted range `"Foo 3-1"`. -/
theorem expand_range_drops_inverted_witness :
    expand_one "Foo 3-1" = [] :=
  expand_range_drops_inverted.1 "Foo 3-1" "Foo" 3 1 rfl (by decide)

/-! ## Claim C8: series aggregation -/

theorem le_foldl_max (a : ℤ) (l : List ℤ) : a ≤ l.foldl max a := by
  induction l generalizing a with
  | nil => simp
  | cons x xs ih => exact le_trans (le_max_left a x) (ih (max a x))

theorem mem_le_foldl_max {v : ℤ} {l : List ℤ} (a : ℤ) (h : v ∈ l) : v ≤ l.foldl max a := by
  induction l generalizing a with
  | nil => cases h
  | cons x xs ih =>
    rcases List.mem_cons.mp h with rfl | h2
    · exact le_trans (le_max_right a v) (le_foldl_max _ xs)
    · exact ih (max a x) h2

theorem foldl_max_mem (a : ℤ) (l : List ℤ) : l.foldl max a = a ∨ l.foldl max a ∈ l := by
  induction l generalizing a with
  | nil => exact Or.inl rfl
  | cons x xs ih =>
    rcases ih (max a x) with h | h
    · rcases max_choice a x with hc | hc
      · exact Or.inl (by rw [List.foldl_cons, h, hc])
      · exact Or.inr (by rw [List.foldl_cons, h, hc]; exact List.mem_cons_self x xs)
    · exact Or.inr (List.mem_cons_of_mem _ h)

/-- Claim C8: `max_series_local` returns `0` on an empty suffix list and
otherwise the maximum of the per-suffix coerced values (an upper bound
that is attained); `sum_series_local` returns their sum; and on the
spec's Hospital fixture (`10`, `25`, absent, `"bad"`) the max is `25`
and the sum is `35`. -/
theorem series_aggregation_claim :
    (∀ m base, max_series_local m base [] = 0) ∧
    (∀ m base rng i, i ∈ rng →
      parse_level (m (series_key base i)) ≤ max_series_local m base rng) ∧
    (∀ m base rng, rng ≠ [] →
      ∃ i ∈ rng, max_series_local m base rng = parse_level (m (series_key base i))) ∧
    (∀ m base rng, sum_series_local m base rng =
      (rng.map (fun i => parse_level (m (series_key base i)))).sum) ∧
    max_series_local mHosp "Hospital" [1, 2, 3, 4] = 25 ∧
    sum_series_local mHosp "Hospital" [1, 2, 3, 4] = 35 := by
  have e10 : parse_level (some "10") = 10 := by
    have h : pyFloat "10" = some ((1 : ℤ) * ((10 : ℕ) : ℚ)) := rfl
    simp [parse_level, h, qtrunc]
  have e25 : parse_level (some "25") = 25 := by
    have h : pyFloat "25" = some ((1 : ℤ) * ((25 : ℕ) : ℚ)) := rfl
    simp [parse_level, h, qtrunc]
  have ebad : parse_level (some "bad") = 0 := by decide
  have enone : parse_level (none : Option String) = 0 := rfl
  refine ⟨fun _ _ => rfl, ?_, ?_, fun _ _ _ => rfl, ?_, ?_⟩
  · intro m base rng i hi
    cases rng with
    | nil => cases hi
    | cons j js =>
      show _ ≤ (js.map fun i => parse_level (m (series_key base i))).foldl max
        (parse_level (m (series_key base j)))
      rcases List.mem_cons.mp hi with rfl | h2
      · exact le_foldl_max _ _
      · exact mem_le_foldl_max _ (List.mem_map_of_mem _ h2)
  · intro m base rng hne
    cases rng with
    | nil => exact absurd rfl hne
    | cons j js =>
      have hshape : max_series_local m base (j :: js) =
          (js.map fun i => parse_level (m (series_key base i))).foldl max
            (parse_level (m (series_key base j))) := rfl
      rcases foldl_max_mem (parse_level (m (series_key base j)))
          (js.map fun i => parse_level (m (series_key base i))) with h | h
      · exact ⟨j, List.mem_cons_self _ _, by rw [hshape, h]⟩
      · rcases List.mem_map.mp h with ⟨i, hi, hv⟩
        exact ⟨i, List.mem_cons_of_mem _ hi, by rw [hshape, ← hv]⟩
  · rw [show max_series_local mHosp "Hospital" [1, 2, 3, 4] =
      ((parse_level (some "10") ⊔ parse_level (some "25")) ⊔
        parse_level (none : Option String)) ⊔ parse_level (some "bad") from rfl,
      e10, e25, enone, ebad]
    decide
  · rw [show sum_series_local mHosp "Hospital" [1, 2, 3, 4] =
      ([parse_level (some "10"), parse_level (some "25"),
        parse_level (none : Option String), parse_level (some "bad")]).sum from rfl,
      e10, e25, enone, ebad]
    decide

/-- Witness for C8: the upper-bound and attainment components applied at
the Hospital fixture. -/
theorem series_aggregation_claim_witness :
    parse_level (mHosp (series_key "Hospital" 2)) ≤
      max_series_local mHosp "Hospital" [1, 2, 3, 4] ∧
    ∃ i ∈ ([1, 2, 3, 4] : List ℤ),
      max_series_local mHosp "Hospital" [1, 2, 3, 4] =
        parse_level (mHosp (series_key "Hospital" i)) :=
  ⟨series_aggregation_claim.2.1 mHosp "Hospital" [1, 2, 3, 4] 2 (by decide),
   series_aggregation_claim.2.2.1 mHosp "Hospital" [1, 2, 3, 4] (by decide)⟩

/-! ## Claim C3: percent-of-baseline clamping -/

theorem pct_chip_p_nonneg (pct : ℚ) : 0 ≤ pct_chip_p pct :=
  le_max_left 0 _

theorem pct_chip_p_le_100 (pct : ℚ) : pct_chip_p pct ≤ 100 :=
  max_le (by norm_num) (min_le_left _ _)

theorem parse_level_twelve : parse_level (some "12") = 12 := by
  have h : pyFloat "12" = some ((1 : ℤ) * ((12 : ℕ) : ℚ)) := rfl
  simp [parse_level, h, qtrunc]

theorem pct_of_hq_sum_overshoot :
    pct_of_hq_sum mOvershoot 10 "Tech Center" [1, 2, 3] = 120 := by
  have hs : sum_series_local mOvershoot "Tech Center" [1, 2, 3] = 36 := by
    rw [show sum_series_local mOvershoot "Tech Center" [1, 2, 3] =
      ([parse_level (some "12"), parse_level (some "12"), parse_level (some "12")]).sum
        from rfl, parse_level_twelve]
    decide
  rw [show pct_of_hq_sum mOvershoot 10 "Tech Center" [1, 2, 3] =
    if (10 : ℤ) ≤ 0 then 0
    else
      if 0 < ((([1, 2, 3] : List ℤ).length : ℚ) * ((10 : ℤ) : ℚ)) then
        ((sum_series_local mOvershoot "Tech Center" [1, 2, 3] : ℤ) : ℚ) /
          ((([1, 2, 3] : List ℤ).length : ℚ) * ((10 : ℤ) : ℚ)) * 100
      else 0 from rfl, hs]
  push_cast
  norm_num

/-- Claim C3 (counterexample): a grouped ratio of 120% is displayed as
`100`, not the `120` a `[0, 150]` clamp would give — the grouped call
sites feed `pct_chip`, whose ceiling is `100`, and no `150` ceiling
exists anywhere in the code. -/
theorem pct_grouped_clamp_is_100_not_150 :
    pct_chip_p (pct_of_hq_sum mOvershoot 10 "Tech Center" [1, 2, 3]) = 100 ∧
    pct_of_hq_sum mOvershoot 10 "Tech Center" [1, 2, 3] = 120 ∧
    min 150 (max 0 (pyRound (pct_of_hq_sum mOvershoot 10 "Tech Center" [1, 2, 3]))) = 120 ∧
    (100 : ℤ) ≠ 120 := by
  have h120 : pyRound (pct_of_hq_sum mOvershoot 10 "Tech Center" [1, 2, 3]) = 120 := by
    rw [pct_of_hq_sum_overshoot, show (120 : ℚ) = ((120 : ℤ) : ℚ) by norm_num,
      pyRound_intCast]
  refine ⟨?_, pct_of_hq_sum_overshoot, ?_, by decide⟩
  · rw [pct_chip_p, h120]; decide
  · rw [h120]; decide

/-- Claim C3 (amended): `percentOfBaseline` returns `0` whenever the
baseline is `≤ 0`, and otherwise `round(value / baseline * 100)` clamped
to `[0, 100]` — in BOTH single-entity and grouped modes (the chip clamp
is the same `max(0, min(100, ...))` at every call site), so
`percentOfBaseline(120, 100)` yields `100` in each mode. -/
theorem percent_clamp_100_both_modes :
    (∀ value baseline : ℤ, percent_of_baseline_single value baseline =
      if baseline ≤ 0 then 0
      else max 0 (min 100 (pyRound ((value : ℚ) / (baseline : ℚ) * 100)))) ∧
    (∀ m hq name, pct_chip_p (pct_of_hq_single m hq name) =
      percent_of_baseline_single (get_level m name) hq) ∧
    (∀ m hq base rng, 0 ≤ pct_chip_p (pct_of_hq_sum m hq base rng) ∧
      pct_chip_p (pct_of_hq_sum m hq base rng) ≤ 100) ∧
    (∀ pct : ℚ, 0 ≤ pct_chip_p pct ∧ pct_chip_p pct ≤ 100) ∧
    percent_of_baseline_single 120 100 = 100 ∧
    (∀ value : ℤ, percent_of_baseline_single value 0 = 0) := by
  have h0 : pyRound 0 = 0 := by
    simpa using pyRound_intCast 0
  refine ⟨?_, fun _ _ _ => rfl, fun m hq base rng => ⟨pct_chip_p_nonneg _, pct_chip_p_le_100 _⟩,
    fun pct => ⟨pct_chip_p_nonneg _, pct_chip_p_le_100 _⟩, ?_, ?_⟩
  · intro value baseline
    by_cases hb : baseline ≤ 0
    · simp [percent_of_baseline_single, pct_chip_p, hb, h0]
    · simp [percent_of_baseline_single, pct_chip_p, hb]
  · have hb : ¬ ((100 : ℤ) ≤ 0) := by decide
    have h1 : ((120 : ℤ) : ℚ) / ((100 : ℤ) : ℚ) * 100 = ((120 : ℤ) : ℚ) := by
      push_cast; norm_num
    simp only [percent_of_baseline_single, if_neg hb]
    rw [h1, pct_chip_p, pyRound_intCast]
    decide
  · intro value
    simp [percent_of_baseline_single, pct_chip_p, h0]

/-! ## Claim C4: research group completion -/

theorem research_completion_eq_spec (rows : List (ℚ × ℚ)) :
    research_completion rows = groupCompletion_spec rows := by
  simp [research_completion, groupCompletion_spec, mul_comm]

theorem research_completion_le_100 (rows : List (ℚ × ℚ)) :
    research_completion rows ≤ 100 := by
  unfold research_completion
  dsimp only
  split
  · norm_num
  · next hne =>
    apply round1_le_100
    set valid := rows.filter (fun r => 0 < r.2) with hvalid
    have hlen : 0 < valid.length := by
      cases hv : valid with
      | nil => rw [hv] at hne; simp at hne
      | cons a l => simp
    have hb : ∀ x ∈ valid.map (fun r => min r.1 r.2 / r.2), x ≤ 1 := by
      rintro x hx
      rcases List.mem_map.mp hx with ⟨r, hr, rfl⟩
      have h2 : 0 < r.2 := by
        have := (List.mem_filter.mp hr).2
        exact of_decide_eq_true this
      exact (div_le_one h2).mpr (min_le_right r.1 r.2)
    have hsum : (valid.map (fun r => min r.1 r.2 / r.2)).sum ≤ (valid.length : ℚ) := by
      have := List.sum_le_card_nsmul (valid.map (fun r => min r.1 r.2 / r.2)) 1 hb
      simpa [nsmul_eq_mul] using this
    have hpos : (0 : ℚ) < (valid.length : ℚ) := by exact_mod_cast hlen
    have hdiv : (valid.map (fun r => min r.1 r.2 / r.2)).sum / (valid.length : ℚ) ≤ 1 :=
      (div_le_one hpos).mpr hsum
    nlinarith

theorem research_completion_fixture :
    research_completion [((50 : ℚ), (10 : ℚ)), ((5 : ℚ), (10 : ℚ))] = 75 := by
  rw [show research_completion [((50 : ℚ), (10 : ℚ)), ((5 : ℚ), (10 : ℚ))] =
    round1 ((min (50 : ℚ) 10 / 10 + (min (5 : ℚ) 10 / 10 + 0)) / ((2 : ℕ) : ℚ) * 100)
      from rfl]
  rw [show (min (50 : ℚ) 10 / 10 + (min (5 : ℚ) 10 / 10 + 0)) / ((2 : ℕ) : ℚ) * 100 =
    ((75 : ℤ) : ℚ) by push_cast; norm_num]
  rw [round1_intCast]
  norm_num

theorem sum_map_mul_100 (l : List (ℚ × ℚ)) :
    (l.map (fun r => r.1 / r.2 * 100)).sum = (l.map (fun r => r.1 / r.2)).sum * 100 := by
  induction l with
  | nil => simp
  | cons a l ih => simp only [List.map_cons, List.sum_cons, ih]; ring

theorem research_chips_pct_fixture :
    research_chips_pct [((50 : ℚ), (10 : ℚ)), ((5 : ℚ), (10 : ℚ))] = 275 := by
  rw [show research_chips_pct [((50 : ℚ), (10 : ℚ)), ((5 : ℚ), (10 : ℚ))] =
    round1 ((chip_row_pct ((50 : ℚ), (10 : ℚ)) + (chip_row_pct ((5 : ℚ), (10 : ℚ)) + 0)) /
      ((2 : ℕ) : ℚ)) from rfl]
  rw [show (chip_row_pct ((50 : ℚ), (10 : ℚ)) + (chip_row_pct ((5 : ℚ), (10 : ℚ)) + 0)) /
      ((2 : ℕ) : ℚ) = ((275 : ℤ) : ℚ) by unfold chip_row_pct; push_cast; norm_num]
  rw [round1_intCast]
  norm_num

/-- Claim C4 (counterexample): on the Dashboard Research Progress chips —
the live category-rollup path the claim cites — the spec's over-leveled
fixture `[(50, 10), (5, 10)]` yields a category percentage of `275.0`,
not the `75.0` the claimed clamped-mean formula gives (which only the
never-called helper `research_completion` computes); the raw category
average is pushed past 100%, and only the chip's display clamp brings
the rendered number back to `100`. -/
theorem research_chips_unclamped_overshoot :
    research_chips_pct [((50 : ℚ), (10 : ℚ)), ((5 : ℚ), (10 : ℚ))] = 275 ∧
    research_completion [((50 : ℚ), (10 : ℚ)), ((5 : ℚ), (10 : ℚ))] = 75 ∧
    (275 : ℚ) ≠ 75 ∧
    (100 : ℚ) < 275 ∧
    pct_chip_p (research_chips_pct [((50 : ℚ), (10 : ℚ)), ((5 : ℚ), (10 : ℚ))]) = 100 := by
  refine ⟨research_chips_pct_fixture, research_completion_fixture, by norm_num, by norm_num, ?_⟩
  rw [research_chips_pct_fixture, pct_chip_p,
    show (275 : ℚ) = ((275 : ℤ) : ℚ) by norm_num, pyRound_intCast]
  decide

/-- Claim C4 (amended): the claimed clamped mean is implemented by the
helper `research_completion` — it equals the spec's `groupCompletion`,
returns `0` with no positive cap, never exceeds `100%`, and gives `75`
on the fixture — but that helper is never called; the dashboard chips
path the claim cites averages the UNCLAMPED `level / max_level * 100`
ratios (zero caps replaced by `1`) and rounds to one decimal, which
agrees with the claimed formula exactly when every row satisfies
`0 < cap` and `level ≤ cap`, computes `275.0` on the over-leveled
fixture, and is confined to `[0, 100]` only by the chip's display
clamp. -/
theorem research_rollup_amended :
    (∀ rows, research_completion rows = groupCompletion_spec rows) ∧
    (∀ rows, research_completion rows ≤ 100) ∧
    (∀ rows, (rows.filter (fun r => 0 < r.2)).isEmpty = true →
      research_completion rows = 0) ∧
    research_completion [((50 : ℚ), (10 : ℚ)), ((5 : ℚ), (10 : ℚ))] = 75 ∧
    (∀ rows, (∀ r ∈ rows, 0 < r.2 ∧ r.1 ≤ r.2) →
      research_chips_pct rows = research_completion rows) ∧
    research_chips_pct [((50 : ℚ), (10 : ℚ)), ((5 : ℚ), (10 : ℚ))] = 275 ∧
    (∀ rows, 0 ≤ pct_chip_p (research_chips_pct rows) ∧
      pct_chip_p (research_chips_pct rows) ≤ 100) := by
  refine ⟨research_completion_eq_spec, research_completion_le_100, ?_,
    research_completion_fixture, ?_, research_chips_pct_fixture,
    fun rows => ⟨pct_chip_p_nonneg _, pct_chip_p_le_100 _⟩⟩
  · intro rows h
    unfold research_completion
    dsimp only
    rw [h]
    rfl
  · intro rows h
    have hval : rows.filter (fun r => 0 < r.2) = rows :=
      List.filter_eq_self.mpr (fun r hr => decide_eq_true (h r hr).1)
    unfold research_chips_pct research_completion
    dsimp only
    rw [hval]
    by_cases he : rows.isEmpty
    · simp [he]
    · simp only [he, if_false]
      have hmap1 : rows.map chip_row_pct = rows.map (fun r => r.1 / r.2 * 100) :=
        List.map_congr_left (fun r hr => by
          unfold chip_row_pct
          rw [if_neg (ne_of_gt (h r hr).1)])
      have hmap2 : rows.map (fun r => min r.1 r.2 / r.2) = rows.map (fun r => r.1 / r.2) :=
        List.map_congr_left (fun r hr => by rw [min_eq_left (h r hr).2])
      rw [hmap1, hmap2, sum_map_mul_100]
      exact congrArg round1 (by ring)

/-- Witness for the amended C4: the agreement component at the
non-over-leveled row list `[(5, 10)]` and the no-positive-cap component
at `[(5, 0)]`. -/
theorem research_rollup_amended_witness :
    research_chips_pct [((5 : ℚ), (10 : ℚ))] = research_completion [((5 : ℚ), (10 : ℚ))] ∧
    research_completion [((5 : ℚ), (0 : ℚ))] = 0 :=
  ⟨research_rollup_amended.2.2.2.2.1 [((5 : ℚ), (10 : ℚ))]
      (by intro r hr; rcases List.mem_cons.mp hr with rfl | hr2; · constructor <;> norm_num
          · cases hr2),
   research_rollup_amended.2.2.1 [((5 : ℚ), (0 : ℚ))] (by decide)⟩

/-! ## Claim C5: diff-based upsert -/

/-- Claim C5: the save path writes exactly the edited rows whose
string-compared value differs from the snapshot — zero upsert calls when
every value matches, and a row is in the diff precisely when its
stringified level differs from the snapshot entry. -/
theorem diff_upsert_claim :
    ∀ (edited : List (String × Option ℚ)) (m : String → Option String) (uid : String),
      ((∀ r ∈ edited,
          (m (⟨chTrim r.1.data⟩ : String)).getD "" = toString (qtrunc (r.2.getD 0))) →
        save_upsert_calls edited m uid = []) ∧
      (∀ c : KVRow, c ∈ save_changes edited m ↔
        ∃ r ∈ edited, c = ⟨⟨chTrim r.1.data⟩, toString (qtrunc (r.2.getD 0))⟩ ∧
          (m (⟨chTrim r.1.data⟩ : String)).getD "" ≠ toString (qtrunc (r.2.getD 0))) := by
  intro edited m uid
  constructor
  · intro h
    have hc : save_changes edited m = [] := by
      apply List.filterMap_eq_nil_iff.mpr
      intro r hr
      dsimp only [save_changes]
      rw [if_neg (not_not_intro (h r hr))]
    simp [save_upsert_calls, hc]
  · intro c
    constructor
    · intro hc
      rcases List.mem_filterMap.mp hc with ⟨r, hr, hf⟩
      dsimp only at hf
      by_cases hne :
          (m (⟨chTrim r.1.data⟩ : String)).getD "" ≠ toString (qtrunc (r.2.getD 0))
      · rw [if_pos hne] at hf
        exact ⟨r, hr, (Option.some_inj.mp hf).symm, hne⟩
      · rw [if_neg hne] at hf
        cases hf
    · rintro ⟨r, hr, rfl, hne⟩
      exact List.mem_filterMap.mpr ⟨r, hr, by dsimp only; rw [if_pos hne]⟩

/-- Witness for C5 on the spec's fixture: snapshot `{A:"1", B:"2"}`,
edited levels `1` and `2` — zero upsert calls are issued. -/
theorem diff_upsert_claim_witness :
    save_upsert_calls [("A", some (1 : ℚ)), ("B", some (2 : ℚ))]
      (fun k => if k = "A" then some "1" else if k = "B" then some "2" else none)
      "u1" = [] := by
  apply (diff_upsert_claim [("A", some (1 : ℚ)), ("B", some (2 : ℚ))]
    (fun k => if k = "A" then some "1" else if k = "B" then some "2" else none) "u1").1
  intro r hr
  have h1 : qtrunc (1 : ℚ) = 1 := by simp [qtrunc]
  have h2 : qtrunc (2 : ℚ) = 2 := by simp [qtrunc]
  rcases List.mem_cons.mp hr with rfl | hr2
  · show _ = toString (qtrunc ((some (1 : ℚ)).getD 0))
    rw [show (some (1 : ℚ)).getD 0 = (1 : ℚ) from rfl, h1]
    decide
  · rcases List.mem_cons.mp hr2 with rfl | hr3
    · show _ = toString (qtrunc ((some (2 : ℚ)).getD 0))
      rw [show (some (2 : ℚ)).getD 0 = (2 : ℚ) from rfl, h2]
      decide
    · cases hr3

/-! ## Claim C6: ordered bulk read -/

theorem load_kv_map_eq_none_iff (rows : List KVRow) (k : String) :
    load_kv_map rows k = none ↔ k ∉ rows.map KVRow.key := by
  induction rows with
  | nil => simp [load_kv_map]
  | cons r rs ih =>
    simp only [load_kv_map, List.map_cons, List.mem_cons]
    cases h : load_kv_map rs k with
    | some v =>
      have hk : k ∈ rs.map KVRow.key := by
        by_contra hk
        rw [ih.mpr hk] at h
        cases h
      simp [hk]
    | none =>
      have hk : k ∉ rs.map KVRow.key := ih.mp h
      by_cases hkr : k = r.key <;> simp [hkr, hk]

theorem load_kv_map_eq_some_iff (rows : List KVRow) :
    (rows.map KVRow.key).Nodup → ∀ k v : String,
      (load_kv_map rows k = some v ↔ (⟨k, v⟩ : KVRow) ∈ rows) := by
  induction rows with
  | nil => simp [load_kv_map]
  | cons r rs ih =>
    intro hnd k v
    obtain ⟨rk, rv⟩ := r
    rw [List.map_cons, List.nodup_cons] at hnd
    have hnd2 := hnd.2
    have hr_not : rk ∉ rs.map KVRow.key := hnd.1
    simp only [load_kv_map, List.mem_cons]
    cases h : load_kv_map rs k with
    | some w =>
      have hkmem : (⟨k, w⟩ : KVRow) ∈ rs := (ih hnd2 k w).mp h
      have hkeys : k ∈ rs.map KVRow.key := List.mem_map.mpr ⟨⟨k, w⟩, hkmem, rfl⟩
      constructor
      · intro hsome
        exact Or.inr (Option.some_inj.mp hsome ▸ hkmem)
      · rintro (heq | hmem)
        · exfalso
          have hkk : k = rk := congrArg KVRow.key heq
          exact hr_not (hkk ▸ hkeys)
        · rw [(ih hnd2 k v).mpr hmem] at h
          exact (Option.some_inj.mp h) ▸ rfl
    | none =>
      have hknot : (⟨k, v⟩ : KVRow) ∉ rs := fun hm => by
        rw [(ih hnd2 k v).mpr hm] at h
        cases h
      by_cases hkr : k = rk
      · subst hkr
        simp [hknot, KVRow.mk.injEq, eq_comm]
      · simp [hkr, hknot, KVRow.mk.injEq]

theorem load_kv_map_perm {s1 s2 : List KVRow} (hp : List.Perm s1 s2)
    (hnd : (s1.map KVRow.key).Nodup) (k : String) :
    load_kv_map s2 k = load_kv_map s1 k := by
  have hnd2 : (s2.map KVRow.key).Nodup := ((hp.map KVRow.key).nodup_iff).mp hnd
  cases h : load_kv_map s1 k with
  | some v =>
    exact (load_kv_map_eq_some_iff s2 hnd2 k v).mpr
      (hp.mem_iff.mp ((load_kv_map_eq_some_iff s1 hnd k v).mp h))
  | none =>
    refine (load_kv_map_eq_none_iff s2 k).mpr ?_
    have := (load_kv_map_eq_none_iff s1 k).mp h
    intro hmem
    exact this ((hp.map KVRow.key).mem_iff.mpr hmem)

/-- Claim C6: the bulk read yields one entry per requested key, in
exactly the caller's order, unchanged under any permutation of the
storage rows (given the per-owner key uniqueness invariant), with `none`
for keys absent from storage and the stored value for present keys. -/
theorem bulk_read_ordered_claim :
    ∀ (keys : List String) (stored stored2 : List KVRow),
      List.Perm stored stored2 → (stored.map KVRow.key).Nodup →
      ((bulk_read keys stored2).map Prod.fst = keys ∧
        bulk_read keys stored2 = bulk_read keys stored ∧
        (bulk_read keys stored2).length = keys.length ∧
        (∀ k ∈ keys, k ∉ stored.map KVRow.key →
          (k, (none : Option String)) ∈ bulk_read keys stored2) ∧
        (∀ k v, (⟨k, v⟩ : KVRow) ∈ stored → k ∈ keys →
          (k, some v) ∈ bulk_read keys stored2)) := by
  intro keys stored stored2 hp hnd
  have hload : ∀ k, load_kv_map stored2 k = load_kv_map stored k :=
    load_kv_map_perm hp hnd
  refine ⟨?_, ?_, ?_, ?_, ?_⟩
  · rw [bulk_read, List.map_map,
      show (Prod.fst ∘ fun k => (k, load_kv_map stored2 k)) = id from rfl, List.map_id]
  · exact List.map_congr_left (fun k _ => by rw [hload k])
  · simp [bulk_read]
  · intro k hk habs
    refine List.mem_map.mpr ⟨k, hk, ?_⟩
    rw [hload k, (load_kv_map_eq_none_iff stored k).mpr habs]
  · intro k v hmem hk
    refine List.mem_map.mpr ⟨k, hk, ?_⟩
    rw [hload k, (load_kv_map_eq_some_iff stored hnd k v).mpr hmem]

/-- Witness for C6: `bulkRead(["C","A","B"])` against the two storage
orders of `{A:"1", B:"2"}` returns entries keyed exactly `C, A, B`, with
`none` for the absent `C`. -/
theorem bulk_read_ordered_claim_witness :
    (bulk_read ["C", "A", "B"] [⟨"B", "2"⟩, ⟨"A", "1"⟩]).map Prod.fst = ["C", "A", "B"] ∧
    bulk_read ["C", "A", "B"] [⟨"B", "2"⟩, ⟨"A", "1"⟩] =
      bulk_read ["C", "A", "B"] [⟨"A", "1"⟩, ⟨"B", "2"⟩] ∧
    (bulk_read ["C", "A", "B"] [⟨"B", "2"⟩, ⟨"A", "1"⟩]).length = 3 ∧
    ("C", (none : Option String)) ∈ bulk_read ["C", "A", "B"] [⟨"B", "2"⟩, ⟨"A", "1"⟩] := by
  have h := bulk_read_ordered_claim ["C", "A", "B"] [⟨"A", "1"⟩, ⟨"B", "2"⟩]
    [⟨"B", "2"⟩, ⟨"A", "1"⟩] (List.Perm.swap _ _ _) (by decide)
  exact ⟨h.1, h.2.1, h.2.2.1, h.2.2.2.1 "C" (by decide) (by decide)⟩

end LastWarHeros
